import Mathlib

/-
Verification of the definition-decoding and record/table enumeration engine of
the `crodump` Cronos-database inspection tool (`crodump/Database.py`).

The embedding below translates the decision-relevant code of `Database.py`
into Lean.  Byte strings are modelled as `List Nat` (each element a byte
value), machine integers as `Nat` with explicit masking where the source
masks.  External collaborators that are not part of the repository snapshot
(the `ByteReader` byte cursor, `Datafile.readrec`, the `Record` row decoder,
the `TableDefinition` parser) are modelled from the specification's interface
contracts, as noted on each definition.
-/

namespace Crodump

/-- Byte strings: a list of byte values. -/
abbrev Bytes := List Nat

/-! ## Byte cursor (`readers.ByteReader`)

Modelled from the spec: the `readers` module is not part of the source
snapshot; §6 specifies `read_length_prefixed_name()`, `read_uint32()`,
`read_bytes(n)` and `at_end()`.  A name is a one-byte length followed by
that many name bytes; a dword is 4 bytes little-endian (Cronos is an x86
format).  Reading past the end of the data fails (spec §4.1 `TruncatedBlob`).
The cursor is modelled by consuming from the front of the remaining bytes. -/

/-- `rd.readname()`: one length byte, then that many name bytes.
Returns the name and the remaining bytes, or `none` when truncated. -/
def readname : Bytes → Option (Bytes × Bytes)
  | [] => none
  | n :: rest => if n ≤ rest.length then some (rest.take n, rest.drop n) else none

/-- `rd.readdword()`: a 32-bit little-endian unsigned integer.
Returns the value and the remaining bytes, or `none` when truncated. -/
def readdword : Bytes → Option (Nat × Bytes)
  | a :: b :: c :: d :: rest => some (a + 256 * (b + 256 * (c + 256 * d)), rest)
  | _ => none

/-! ## Definition decoder (`Database.decode_db_definition`, lines 78-98) -/

/-- Warnings printed by `decode_db_definition` (the two `print("WARN: ...")`
statements at lines 88 and 96). -/
inductive Warn
  | dupKey (k : Bytes)
  | badRefTag
  deriving DecidableEq, Repr

/-- Line 87-88: `if keyname in d: print("WARN: duplicate key")`. -/
def dupWarn (d : List (Bytes × Bytes)) (k : Bytes) : List Warn :=
  if d.any (fun kv => kv.1 == k) then [Warn.dupKey k] else []

/-- Line 95-96: `if refdata[:1] != b"\x04": print("WARN: ...")`. -/
def tagWarn (refdata : Bytes) : List Warn :=
  if refdata.take 1 == [4] then [] else [Warn.badRefTag]

/-- `d[keyname] = value` on a Python (insertion-ordered) dict: an existing
key keeps its position and gets the new value, a fresh key is appended. -/
def updAssoc (d : List (Bytes × Bytes)) (k v : Bytes) : List (Bytes × Bytes) :=
  if d.any (fun kv => kv.1 == k) then
    d.map (fun kv => if kv.1 == k then (k, v) else kv)
  else d ++ [(k, v)]

/-- The `while not rd.eof()` loop of `decode_db_definition` (lines 85-97),
with the cursor as the remaining bytes and explicit fuel (each iteration
consumes at least one byte, so fuel = initial length always suffices).
A reference to a record the structure store cannot produce fails, as the
uncaught Python exception would. -/
def decodeLoop (stru : Nat → Option Bytes) :
    Nat → Bytes → List (Bytes × Bytes) → List Warn →
    Except String (List (Bytes × Bytes) × List Warn)
  | _, [], d, w => .ok (d, w)
  | 0, _ :: _, _, _ => .error msgFuel
  | fuel + 1, a :: data, d, w =>
    match readname (a :: data) with
    | none => .error msgTrunc
    | some (keyname, r1) =>
      let w1 := w ++ dupWarn d keyname
      match readdword r1 with
      | none => .error msgTrunc
      | some (iol, r2) =>
        if iol >>> 31 ≠ 0 then
          let n := iol &&& 0x7FFFFFFF
          if n ≤ r2.length then
            decodeLoop stru fuel (r2.drop n) (updAssoc d keyname (r2.take n)) w1
          else .error msgTrunc
        else
          match stru iol with
          | none => .error msgBadRef
          | some refdata =>
            decodeLoop stru fuel r2 (updAssoc d keyname (refdata.drop 1))
              (w1 ++ tagWarn refdata)
where
  msgFuel : String := "out of fuel"
  msgTrunc : String := "TruncatedBlob"
  msgBadRef : String := "unresolvable reference"

/-- `Database.decode_db_definition(data)` (lines 78-98).  `stru` models
`self.stru.readrec` (`none` = record unavailable).  Returns the decoded
insertion-ordered mapping together with the warnings printed. -/
def decode_db_definition (stru : Nat → Option Bytes) (data : Bytes) :
    Except String (List (Bytes × Bytes) × List Warn) :=
  decodeLoop stru data.length data [] []

/-! ## Definition-blob entries and the inverse (encoding) rule

`DefEntry` is the tagged union of §3 / §9 of the spec: an entry is either
inline (descriptor top bit set, low 31 bits the byte length of the value
that follows) or a reference (descriptor top bit clear, low 31 bits a
record number).  `encodeEntry` is the inverse of the decoding rule and is
used both to characterise well-formed blobs and to state the round-trip
property. -/

inductive DefEntry
  | inl (key val : Bytes)
  | ref (key : Bytes) (recno : Nat)
  deriving DecidableEq, Repr

def entryKey : DefEntry → Bytes
  | .inl k _ => k
  | .ref k _ => k

/-- Is the entry an inline one? -/
def isInl : DefEntry → Bool
  | .inl _ _ => true
  | .ref _ _ => false

/-- 32-bit little-endian byte encoding of a dword value. -/
def dwordLE (v : Nat) : Bytes :=
  [v % 256, v / 256 % 256, v / 65536 % 256, v / 16777216 % 256]

/-- The inverse of the entry-decoding rule: a length-prefixed name, then
the 4-byte descriptor, then (for inline entries) the value bytes. -/
def encodeEntry : DefEntry → Bytes
  | .inl k v => k.length :: (k ++ dwordLE (0x80000000 + v.length) ++ v)
  | .ref k n => k.length :: (k ++ dwordLE n)

def encodeEntries (es : List DefEntry) : Bytes :=
  es.flatMap encodeEntry

/-- Well-formedness of an entry: the key fits in one length byte, the
inline value length fits in 31 bits, a record number fits in 31 bits. -/
def wfEntryB : DefEntry → Bool
  | .inl k v => decide (k.length < 256) && decide (v.length < 0x80000000)
  | .ref k n => decide (k.length < 256) && decide (n < 0x80000000)

/-- The (key, value) pair an inline entry decodes to. -/
def entryPair : DefEntry → Bytes × Bytes
  | .inl k v => (k, v)
  | .ref k _ => (k, [])

/-- The per-entry state transformer of the decoder: what one loop
iteration does to the accumulated mapping and warning list. -/
def applyEntry (stru : Nat → Option Bytes)
    (acc : List (Bytes × Bytes) × List Warn) (e : DefEntry) :
    List (Bytes × Bytes) × List Warn :=
  match e with
  | .inl k v => (updAssoc acc.1 k v, acc.2 ++ dupWarn acc.1 k)
  | .ref k n =>
    match stru n with
    | some refdata =>
      (updAssoc acc.1 k (refdata.drop 1), acc.2 ++ dupWarn acc.1 k ++ tagWarn refdata)
    | none => acc

/-- Re-encoding of a decoded mapping with the inline inverse rule. -/
def reencode (d : List (Bytes × Bytes)) : Bytes :=
  d.flatMap fun kv => encodeEntry (.inl kv.1 kv.2)

/-! ### Parse lemmas -/

theorem readname_encode (k rest : Bytes) :
    readname (k.length :: (k ++ rest)) = some (k, rest) := by
  simp [readname]

theorem readdword_dwordLE (v : Nat) (rest : Bytes) (h : v < 0x100000000) :
    readdword (dwordLE v ++ rest) = some (v, rest) := by
  simp only [dwordLE, List.cons_append, List.nil_append, readdword]
  have hval : v % 256 + 256 * (v / 256 % 256 + 256 * (v / 65536 % 256 + 256 * (v / 16777216 % 256))) = v := by
    omega
  rw [hval]

theorem inl_descr_shift (L : Nat) (h : L < 0x80000000) :
    (0x80000000 + L) >>> 31 ≠ 0 := by
  rw [Nat.shiftRight_eq_div_pow]
  have h2 : (2 : Nat) ^ 31 = 0x80000000 := by norm_num
  omega

theorem inl_descr_mask (L : Nat) (h : L < 0x80000000) :
    (0x80000000 + L) &&& 0x7FFFFFFF = L := by
  have h1 : (0x7FFFFFFF : Nat) = 2 ^ 31 - 1 := by norm_num
  rw [h1, Nat.and_pow_two_sub_one_eq_mod]
  have h2 : (2 : Nat) ^ 31 = 0x80000000 := by norm_num
  omega

theorem ref_descr_shift (n : Nat) (h : n < 0x80000000) : n >>> 31 = 0 := by
  rw [Nat.shiftRight_eq_div_pow]
  have h2 : (2 : Nat) ^ 31 = 0x80000000 := by norm_num
  omega

/-- One decoder iteration on an encoded inline entry. -/
theorem decodeLoop_inl (stru : Nat → Option Bytes) (fuel : Nat) (k v rest : Bytes)
    (d : List (Bytes × Bytes)) (w : List Warn) (hv : v.length < 0x80000000) :
    decodeLoop stru (fuel + 1) (encodeEntry (.inl k v) ++ rest) d w =
      decodeLoop stru fuel rest (updAssoc d k v) (w ++ dupWarn d k) := by
  have hassoc2 : encodeEntry (.inl k v) ++ rest =
      k.length :: (k ++ (dwordLE (0x80000000 + v.length) ++ (v ++ rest))) := by
    simp [encodeEntry, List.append_assoc]
  rw [hassoc2]
  have hd : (0x80000000 + v.length) < 0x100000000 := by omega
  simp only [decodeLoop, readname_encode, readdword_dwordLE _ _ hd]
  rw [if_pos (inl_descr_shift v.length hv), inl_descr_mask v.length hv]
  rw [List.take_left, List.drop_left]
  exact if_pos (by simp)

/-- One decoder iteration on an encoded reference entry whose record the
structure store resolves. -/
theorem decodeLoop_ref (stru : Nat → Option Bytes) (fuel : Nat) (k rest : Bytes)
    (n : Nat) (refdata : Bytes) (d : List (Bytes × Bytes)) (w : List Warn)
    (hn : n < 0x80000000) (hres : stru n = some refdata) :
    decodeLoop stru (fuel + 1) (encodeEntry (.ref k n) ++ rest) d w =
      decodeLoop stru fuel rest (updAssoc d k (refdata.drop 1))
        (w ++ dupWarn d k ++ tagWarn refdata) := by
  have hassoc : encodeEntry (.ref k n) ++ rest =
      k.length :: (k ++ (dwordLE n ++ rest)) := by
    simp [encodeEntry, List.append_assoc]
  rw [hassoc]
  have hd : n < 0x100000000 := by omega
  simp only [decodeLoop, readname_encode, readdword_dwordLE _ _ hd]
  rw [if_neg (by simp [ref_descr_shift n hn]), hres]

theorem encodeEntry_length_pos (e : DefEntry) : 1 ≤ (encodeEntry e).length := by
  cases e <;> simp [encodeEntry]

theorem encodeEntries_length_ge (es : List DefEntry) :
    es.length ≤ (encodeEntries es).length := by
  induction es with
  | nil => simp [encodeEntries]
  | cons e es ih =>
    have h1 := encodeEntry_length_pos e
    simp only [encodeEntries, List.flatMap_cons, List.length_append, List.length_cons]
    simp only [encodeEntries] at ih
    omega

/-- The decoder on an encoded entry list computes the fold of the
per-entry transformer, provided every reference entry resolves. -/
theorem decodeLoop_encodeEntries (stru : Nat → Option Bytes) (es : List DefEntry)
    (fuel : Nat) (d : List (Bytes × Bytes)) (w : List Warn)
    (hwf : ∀ e ∈ es, wfEntryB e = true)
    (hres : ∀ k n, DefEntry.ref k n ∈ es → (stru n).isSome)
    (hfuel : es.length ≤ fuel) :
    decodeLoop stru fuel (encodeEntries es) d w =
      .ok (es.foldl (applyEntry stru) (d, w)) := by
  induction es generalizing fuel d w with
  | nil => simp [encodeEntries, decodeLoop]
  | cons e es ih =>
    have hlen : es.length + 1 ≤ fuel := by
      simpa using hfuel
    obtain ⟨f, rfl⟩ : ∃ f, fuel = f + 1 := ⟨fuel - 1, by omega⟩
    have hwe := hwf e (by simp)
    have hwf2 : ∀ x ∈ es, wfEntryB x = true := fun x hx => hwf x (by simp [hx])
    have hres2 : ∀ k n, DefEntry.ref k n ∈ es → (stru n).isSome :=
      fun k n hn => hres k n (by simp [hn])
    have hf2 : es.length ≤ f := by omega
    have hrest : encodeEntries (e :: es) = encodeEntry e ++ encodeEntries es := by
      simp [encodeEntries]
    rw [hrest]
    cases e with
    | inl k v =>
      have hv : v.length < 0x80000000 := by
        simp [wfEntryB] at hwe
        exact hwe.2
      rw [decodeLoop_inl stru f k v _ d w hv]
      rw [ih f (updAssoc d k v) (w ++ dupWarn d k) hwf2 hres2 hf2]
      simp [applyEntry]
    | ref k n =>
      have hn : n < 0x80000000 := by
        simp [wfEntryB] at hwe
        exact hwe.2
      have hsome := hres k n (by simp)
      obtain ⟨refdata, hrefdata⟩ := Option.isSome_iff_exists.mp hsome
      rw [decodeLoop_ref stru f k _ n refdata d w hn hrefdata]
      rw [ih f (updAssoc d k (refdata.drop 1)) (w ++ dupWarn d k ++ tagWarn refdata)
        hwf2 hres2 hf2]
      simp [applyEntry, hrefdata]

theorem decodeLoop_nil (stru : Nat → Option Bytes) (fuel : Nat)
    (d : List (Bytes × Bytes)) (w : List Warn) :
    decodeLoop stru fuel [] d w = .ok (d, w) := by
  cases fuel <;> rfl

/-- Folding the per-entry transformer over inline entries with pairwise
distinct keys, all fresh for the accumulated mapping, appends the entries
as pairs and emits no warning. -/
theorem foldl_applyEntry_inline (stru : Nat → Option Bytes) (es : List DefEntry)
    (d : List (Bytes × Bytes)) (w : List Warn)
    (hinl : ∀ e ∈ es, isInl e = true)
    (hnd : (es.map entryKey).Nodup)
    (hfresh : ∀ e ∈ es, d.any (fun kv => kv.1 == entryKey e) = false) :
    es.foldl (applyEntry stru) (d, w) = (d ++ es.map entryPair, w) := by
  induction es generalizing d with
  | nil => simp
  | cons e es ih =>
    cases e with
    | ref k n =>
      have h := hinl (DefEntry.ref k n) (List.mem_cons_self _ _)
      simp [isInl] at h
    | inl k v =>
      have hf : d.any (fun kv => kv.1 == k) = false := by
        have h := hfresh (DefEntry.inl k v) (List.mem_cons_self _ _)
        simpa [entryKey] using h
      have hnd1 : k ∉ es.map entryKey ∧ (es.map entryKey).Nodup := by
        have h := hnd
        rw [List.map_cons, show entryKey (DefEntry.inl k v) = k from rfl] at h
        exact List.nodup_cons.mp h
      have hinl2 : ∀ x ∈ es, isInl x = true :=
        fun x hx => hinl x (List.mem_cons_of_mem _ hx)
      have hfresh2 : ∀ x ∈ es,
          ((d ++ [(k, v)]).any fun kv => kv.1 == entryKey x) = false := by
        intro x hx
        have hda := hfresh x (List.mem_cons_of_mem _ hx)
        have hkx : (k == entryKey x) = false := by
          have hmem : entryKey x ∈ es.map entryKey := List.mem_map_of_mem entryKey hx
          have hne : k ≠ entryKey x := fun hkk => hnd1.1 (hkk ▸ hmem)
          simpa using hne
        simp [List.any_append, hda, hkx]
      simp only [List.foldl_cons, applyEntry, updAssoc, hf, dupWarn]
      simp only [Bool.false_eq_true, if_false, List.append_nil]
      rw [ih (d ++ [(k, v)]) hinl2 hnd1.2 hfresh2]
      simp [entryPair]

/-- Re-encoding the pairs of an all-inline entry list with the inline
inverse rule restores the entry-list encoding. -/
theorem reencode_map_entryPair (es : List DefEntry)
    (hinl : ∀ e ∈ es, isInl e = true) :
    reencode (es.map entryPair) = encodeEntries es := by
  induction es with
  | nil => simp [reencode, encodeEntries]
  | cons e es ih =>
    cases e with
    | ref k n =>
      have h := hinl (DefEntry.ref k n) (List.mem_cons_self _ _)
      simp [isInl] at h
    | inl k v =>
      have ih2 := ih (fun x hx => hinl x (List.mem_cons_of_mem _ hx))
      simp only [List.map_cons, reencode, entryPair, List.flatMap_cons, encodeEntries]
      simp only [reencode, encodeEntries] at ih2
      rw [ih2]

/-! ## Claim theorems about the definition decoder -/

/-- C4: decoding a definition blob containing two entries that share the
same key yields a mapping with exactly one entry for that key, whose value
is the second entry's decoded value (last write wins), emits exactly one
warning, and does not fail. -/
theorem C4_duplicate_key_last_wins (stru : Nat → Option Bytes) (k v1 v2 : Bytes)
    (hk : k.length < 256) (h1 : v1.length < 0x80000000) (h2 : v2.length < 0x80000000) :
    decode_db_definition stru
        (encodeEntries [DefEntry.inl k v1, DefEntry.inl k v2]) =
      .ok ([(k, v2)], [Warn.dupKey k]) := by
  rw [decode_db_definition]
  rw [decodeLoop_encodeEntries stru [DefEntry.inl k v1, DefEntry.inl k v2] _ [] []
    (by simp [wfEntryB, hk, h1, h2]) (by simp)
    (encodeEntries_length_ge _)]
  simp [applyEntry, updAssoc, dupWarn]

/-- C4 witness: a concrete two-entry blob with a shared key decodes to the
second value with a single duplicate-key warning. -/
theorem C4_duplicate_key_last_wins_witness :
    decode_db_definition (fun _ => none)
        (encodeEntries [DefEntry.inl [65] [1], DefEntry.inl [65] [2, 3]]) =
      .ok ([([65], [2, 3])], [Warn.dupKey [65]]) :=
  C4_duplicate_key_last_wins (fun _ => none) [65] [1] [2, 3]
    (by decide) (by decide) (by decide)

/-- C5: a definition-blob entry whose descriptor has the mode flag (bit 31)
clear resolves the low 31 bits as a record number; when the referenced
record's content does not start with byte `0x04`, the decoder still stores
the referenced content minus its first byte as the value, emits exactly one
warning, and does not fail: stated both as the effect of one decoding step
inside any blob, and as the result of decoding a single-entry blob. -/
theorem C5_ref_entry_bad_tag (stru : Nat → Option Bytes) (fuel : Nat)
    (k rest refdata : Bytes) (n : Nat) (d : List (Bytes × Bytes)) (w : List Warn)
    (hn : n < 0x80000000) (hres : stru n = some refdata)
    (htag : refdata.take 1 ≠ [4])
    (hfresh : d.any (fun kv => kv.1 == k) = false) :
    decodeLoop stru (fuel + 1) (encodeEntry (.ref k n) ++ rest) d w =
        decodeLoop stru fuel rest (d ++ [(k, refdata.drop 1)])
          (w ++ [Warn.badRefTag]) ∧
      decode_db_definition stru (encodeEntry (.ref k n)) =
        .ok ([(k, refdata.drop 1)], [Warn.badRefTag]) := by
  have htagw : tagWarn refdata = [Warn.badRefTag] := by
    rw [tagWarn, if_neg]
    simp only [beq_iff_eq]
    exact htag
  have hstep : ∀ f r d2 w2, d2.any (fun kv => kv.1 == k) = false →
      decodeLoop stru (f + 1) (encodeEntry (.ref k n) ++ r) d2 w2 =
        decodeLoop stru f r (d2 ++ [(k, refdata.drop 1)]) (w2 ++ [Warn.badRefTag]) := by
    intro f r d2 w2 hf2
    rw [decodeLoop_ref stru f k r n refdata d2 w2 hn hres]
    rw [updAssoc, if_neg (by simp [hf2]), dupWarn, if_neg (by simp [hf2]), htagw]
    simp
  refine ⟨hstep fuel rest d w hfresh, ?_⟩
  rw [decode_db_definition]
  have hlen : (encodeEntry (DefEntry.ref k n)).length = 5 + k.length := by
    simp [encodeEntry, dwordLE]
    omega
  rw [show encodeEntry (DefEntry.ref k n) = encodeEntry (DefEntry.ref k n) ++ [] by simp]
  simp only [List.length_append, hlen, List.length_nil]
  rw [show 5 + k.length + 0 = (4 + k.length) + 1 by omega]
  rw [hstep (4 + k.length) [] [] [] rfl]
  rw [decodeLoop_nil]
  simp

/-- C5 witness: a concrete reference entry to a record starting with `0x09`
decodes to that record's tail with one warning. -/
theorem C5_ref_entry_bad_tag_witness :
    (decodeLoop (fun i => if i = 7 then some [9, 10, 11] else none) (0 + 1)
          (encodeEntry (.ref [66] 7) ++ []) [] [] =
        decodeLoop (fun i => if i = 7 then some [9, 10, 11] else none) 0 []
          ([] ++ [([66], [10, 11])]) ([] ++ [Warn.badRefTag])) ∧
      decode_db_definition (fun i => if i = 7 then some [9, 10, 11] else none)
          (encodeEntry (.ref [66] 7)) =
        .ok ([([66], [10, 11])], [Warn.badRefTag]) :=
  C5_ref_entry_bad_tag (fun i => if i = 7 then some [9, 10, 11] else none) 0
    [66] [] [9, 10, 11] 7 [] [] (by decide) (by decide) (by decide) (by decide)

/-- C7: every well-formed definition blob consisting only of inline entries
(that is, every byte string that is the encoding of a well-formed, key-
distinct, all-inline entry list) decodes without failure or warning, and
re-encoding the resulting ordered mapping with the inverse rule yields the
original blob byte for byte. -/
theorem C7_inline_roundtrip (stru : Nat → Option Bytes) (blob : Bytes)
    (es : List DefEntry) (hwf : ∀ e ∈ es, wfEntryB e = true)
    (hinl : ∀ e ∈ es, isInl e = true) (hnd : (es.map entryKey).Nodup)
    (henc : encodeEntries es = blob) :
    decode_db_definition stru blob = .ok (es.map entryPair, []) ∧
      reencode (es.map entryPair) = blob := by
  subst henc
  refine ⟨?_, reencode_map_entryPair es hinl⟩
  rw [decode_db_definition]
  rw [decodeLoop_encodeEntries stru es _ [] [] hwf
    (fun k n hn => by
      have := hinl _ hn
      simp [isInl] at this)
    (encodeEntries_length_ge _)]
  rw [foldl_applyEntry_inline stru es [] [] hinl hnd (by simp)]
  simp

/-- C7 witness: a concrete two-entry inline blob decodes with no warnings
and re-encodes to itself. -/
theorem C7_inline_roundtrip_witness :
    decode_db_definition (fun _ => none)
        (encodeEntries [DefEntry.inl [65] [66, 67], DefEntry.inl [68] []]) =
      .ok ([([65], [66, 67]), ([68], [])], []) ∧
    reencode [([65], [66, 67]), ([68], [])] =
      encodeEntries [DefEntry.inl [65] [66, 67], DefEntry.inl [68] []] :=
  C7_inline_roundtrip (fun _ => none) _
    [DefEntry.inl [65] [66, 67], DefEntry.inl [68] []]
    (by decide) (by decide) (by decide) rfl

/-! ## Table catalog walker (`Database.enumerate_tables`, lines 130-144) -/

/-- The ASCII bytes of the string `Base`. -/
def baseKeyBytes : Bytes := [66, 97, 115, 101]

/-- The ASCII bytes of the suffix string `000`. -/
def suffix000 : Bytes := [48, 48, 48]

/-- Python `k[4:].isnumeric()` on the key suffix.  Key decoding is done by
the external byte cursor; modelled from the spec: keys are short printable
names, and a numeric suffix is a nonempty run of decimal digit bytes. -/
def isnumericB (s : Bytes) : Bool :=
  !s.isEmpty && s.all (fun c => 48 ≤ c && c ≤ 57)

/-- Lines 139-144 of `enumerate_tables`: the `(key, value)` entries of a
decoded database definition that yield a `TableDefinition`, in encounter
order.  A key must start with `Base` followed by an all-numeric suffix;
with `files` true only suffix `000` is kept, with `files` false every
numeric suffix other than `000` is kept (each guard mirrors one of the two
`if` statements in the loop body). -/
def enumerate_tables_entries (files : Bool) (dbdef : List (Bytes × Bytes)) :
    List (Bytes × Bytes) :=
  dbdef.flatMap fun kv =>
    if kv.1.take 4 = baseKeyBytes ∧ isnumericB (kv.1.drop 4) = true then
      (if files = true ∧ kv.1.drop 4 = suffix000 then [kv] else []) ++
        (if files = false ∧ kv.1.drop 4 ≠ suffix000 then [kv] else [])
    else []

/-- `TableDefinition(v)`: modelled from the spec — the external
`TableDefinition` constructor parses a table's id and field layout from
the blob (out of scope, spec §1); the model retains the defining blob. -/
structure TableDefinition where
  blob : Bytes
  deriving DecidableEq, Repr

/-- `Database.enumerate_tables` (lines 130-144): one `TableDefinition` per
selected entry, built from the entry's value, in encounter order. -/
def enumerate_tables (files : Bool) (dbdef : List (Bytes × Bytes)) :
    List TableDefinition :=
  (enumerate_tables_entries files dbdef).map fun kv => TableDefinition.mk kv.2

/-- C3: for every decoded database definition, every entry yielded by
`enumerate_tables` has a key of the form `Base` + all-numeric suffix;
with `want_files` false the suffix is never `000`, and with `want_files`
true the suffix is always `000`. -/
theorem C3_enumerate_tables_partition (files : Bool) (dbdef : List (Bytes × Bytes))
    (k v : Bytes) (hmem : (k, v) ∈ enumerate_tables_entries files dbdef) :
    (k.take 4 = baseKeyBytes ∧ isnumericB (k.drop 4) = true) ∧
      (files = false → k.drop 4 ≠ suffix000) ∧
      (files = true → k.drop 4 = suffix000) := by
  rw [enumerate_tables_entries, List.mem_flatMap] at hmem
  obtain ⟨kv, hkv, hm⟩ := hmem
  by_cases hb : kv.1.take 4 = baseKeyBytes ∧ isnumericB (kv.1.drop 4) = true
  · rw [if_pos hb, List.mem_append] at hm
    rcases hm with hm | hm
    · by_cases hc : files = true ∧ kv.1.drop 4 = suffix000
      · rw [if_pos hc] at hm
        rw [List.mem_singleton] at hm
        subst hm
        refine ⟨hb, fun hff => ?_, fun _ => hc.2⟩
        rw [hff] at hc
        exact (Bool.false_ne_true hc.1).elim
      · rw [if_neg hc] at hm
        exact absurd hm (List.not_mem_nil _)
    · by_cases hc : files = false ∧ kv.1.drop 4 ≠ suffix000
      · rw [if_pos hc] at hm
        rw [List.mem_singleton] at hm
        subst hm
        refine ⟨hb, fun _ => hc.2, fun htt => ?_⟩
        rw [htt] at hc
        exact (Bool.false_ne_true hc.1.symm).elim
      · rw [if_neg hc] at hm
        exact absurd hm (List.not_mem_nil _)
  · rw [if_neg hb] at hm
    exact absurd hm (List.not_mem_nil _)

/-- C3 witness: with `want_files` false, the entry `Base001` is selected
and indeed has a numeric suffix different from `000`. -/
theorem C3_enumerate_tables_partition_witness :
    ([66, 97, 115, 101, 48, 48, 49].take 4 = baseKeyBytes ∧
        isnumericB ([66, 97, 115, 101, 48, 48, 49].drop 4) = true) ∧
      (false = false → [66, 97, 115, 101, 48, 48, 49].drop 4 ≠ suffix000) ∧
      (false = true → [66, 97, 115, 101, 48, 48, 49].drop 4 = suffix000) :=
  C3_enumerate_tables_partition false [([66, 97, 115, 101, 48, 48, 49], [7])]
    [66, 97, 115, 101, 48, 48, 49] [7] (by decide)

/-! ## Record sweep: filtered enumeration
(`Database.enumerate_records`, lines 146-162, and `Database.enumerate_files`,
lines 164-172).  The bank store is a list of slots, slot `i` holding the
raw bytes of record `i + 1` or `none` for an absent (deleted) record;
`nrofrecords` is its length, so the loop `for i in range(self.nrofrecords())`
with `readrec(i + 1)` walks exactly the slots in order. -/

/-- Modelled from the spec: the parsed table metadata that
`enumerate_records` consumes — the small integer table id
(`table.tableid`) and the ordered field layout (`table.fields`, opaque
here), produced by the external `TableDefinition` parser. -/
structure Table where
  tableid : Nat
  fields : List Nat
  deriving DecidableEq, Repr

/-- Modelled from the spec: a `Record` object stores the 1-based record
number, the field layout it was decoded with, and the decoded row (kept
opaque as the bytes the row decoder returns). -/
structure Record where
  recno : Nat
  fields : List Nat
  row : Bytes
  deriving DecidableEq, Repr

/-- One `"Record broken: <recno>  -----> <hex>"` diagnostic printed to
stderr (line 162): the record number and the dumped record bytes. -/
structure Diag where
  recno : Nat
  data : Bytes
  deriving DecidableEq, Repr

/-- Modelled from the spec (§6): the row decoder the `Record` constructor
invokes, from field layout and payload to a decoded row or a per-record
failure; `enumerate_records` is parametric in it. -/
abbrev RowDec := List Nat → Bytes → Except String Bytes

/-- The loop body of `enumerate_records` (lines 156-162) over the
remaining bank slots, `pos` being the 1-based record number of the first
remaining slot: absent (`None`) and empty (falsy) records are skipped, as
are records whose leading byte differs from the table id; otherwise the
rest of the record is decoded, and a decode failure emits a diagnostic
and continues the sweep. -/
def enumRecGo (rowdec : RowDec) (t : Table) :
    Nat → List (Option Bytes) → List Record × List Diag
  | _, [] => ([], [])
  | pos, od :: rest =>
    let rd := enumRecGo rowdec t (pos + 1) rest
    match od with
    | none => rd
    | some [] => rd
    | some (b :: tl) =>
      if b = t.tableid then
        match rowdec t.fields tl with
        | .ok row => (⟨pos, t.fields, row⟩ :: rd.1, rd.2)
        | .error _ => (rd.1, ⟨pos, b :: tl⟩ :: rd.2)
      else rd

/-- `Database.enumerate_records` (lines 146-162): the records yielded and
the diagnostics printed, in sweep order. -/
def enumerate_records (rowdec : RowDec) (bank : List (Option Bytes)) (t : Table) :
    List Record × List Diag :=
  enumRecGo rowdec t 1 bank

/-- The loop of `enumerate_files` (lines 169-172): the same filter, but
yielding `(record number, payload after the id byte)` pairs, no decode. -/
def enumFilesGo (t : Table) : Nat → List (Option Bytes) → List (Nat × Bytes)
  | _, [] => []
  | pos, od :: rest =>
    let fr := enumFilesGo t (pos + 1) rest
    match od with
    | none => fr
    | some [] => fr
    | some (b :: tl) => if b = t.tableid then (pos, tl) :: fr else fr

/-- `Database.enumerate_files` (lines 164-172). -/
def enumerate_files (bank : List (Option Bytes)) (t : Table) : List (Nat × Bytes) :=
  enumFilesGo t 1 bank

/-! ### Characterisation lemmas for the filtered sweeps -/

theorem enumRecGo_mem_rec (rowdec : RowDec) (t : Table) (slots : List (Option Bytes))
    (rn : Nat) (rf : List Nat) (rr : Bytes) :
    ∀ pos, (⟨rn, rf, rr⟩ : Record) ∈ (enumRecGo rowdec t pos slots).1 ↔
      ∃ j tl, slots[j]? = some (some (t.tableid :: tl)) ∧
        rowdec t.fields tl = .ok rr ∧ rn = pos + j ∧ rf = t.fields := by
  induction slots with
  | nil => intro pos; simp [enumRecGo]
  | cons od rest ih =>
    intro pos
    have hshift :
        (∃ j tl, rest[j]? = some (some (t.tableid :: tl)) ∧
            rowdec t.fields tl = .ok rr ∧ rn = (pos + 1) + j ∧ rf = t.fields) →
        ∃ j tl, (od :: rest)[j]? = some (some (t.tableid :: tl)) ∧
            rowdec t.fields tl = .ok rr ∧ rn = pos + j ∧ rf = t.fields := by
      rintro ⟨j, tl, h1, h2, h3, h4⟩
      exact ⟨j + 1, tl, by simpa using h1, h2, by omega, h4⟩
    cases od with
    | none =>
      rw [show enumRecGo rowdec t pos (none :: rest) =
        enumRecGo rowdec t (pos + 1) rest from rfl]
      rw [ih (pos + 1)]
      constructor
      · exact hshift
      · rintro ⟨j, tl, h1, h2, h3, h4⟩
        cases j with
        | zero => simp at h1
        | succ j => exact ⟨j, tl, by simpa using h1, h2, by omega, h4⟩
    | some d =>
      cases d with
      | nil =>
        rw [show enumRecGo rowdec t pos (some [] :: rest) =
          enumRecGo rowdec t (pos + 1) rest from rfl]
        rw [ih (pos + 1)]
        constructor
        · exact hshift
        · rintro ⟨j, tl, h1, h2, h3, h4⟩
          cases j with
          | zero => simp at h1
          | succ j => exact ⟨j, tl, by simpa using h1, h2, by omega, h4⟩
      | cons b tl2 =>
        by_cases hb : b = t.tableid
        · subst hb
          cases hdec : rowdec t.fields tl2 with
          | ok row =>
            have hstep : enumRecGo rowdec t pos (some (t.tableid :: tl2) :: rest) =
                ((⟨pos, t.fields, row⟩ : Record) ::
                    (enumRecGo rowdec t (pos + 1) rest).1,
                  (enumRecGo rowdec t (pos + 1) rest).2) := by
              simp [enumRecGo, hdec]
            rw [hstep]
            simp only [List.mem_cons]
            constructor
            · rintro (heq | hmem)
              · rw [Record.mk.injEq] at heq
                exact ⟨0, tl2, by simp, by rw [heq.2.2]; exact hdec, by omega, heq.2.1⟩
              · exact hshift ((ih (pos + 1)).mp hmem)
            · rintro ⟨j, tl, h1, h2, h3, h4⟩
              cases j with
              | zero =>
                have htl : tl2 = tl := by
                  simpa using h1
                subst htl
                left
                rw [hdec] at h2
                rw [Record.mk.injEq]
                exact ⟨by omega, h4, Except.ok.inj h2.symm⟩
              | succ j =>
                right
                exact (ih (pos + 1)).mpr ⟨j, tl, by simpa using h1, h2, by omega, h4⟩
          | error e =>
            have hstep : enumRecGo rowdec t pos (some (t.tableid :: tl2) :: rest) =
                ((enumRecGo rowdec t (pos + 1) rest).1,
                  (⟨pos, t.tableid :: tl2⟩ : Diag) ::
                    (enumRecGo rowdec t (pos + 1) rest).2) := by
              simp [enumRecGo, hdec]
            rw [hstep]
            rw [show ((enumRecGo rowdec t (pos + 1) rest).1,
                (⟨pos, t.tableid :: tl2⟩ : Diag) ::
                  (enumRecGo rowdec t (pos + 1) rest).2).1 =
              (enumRecGo rowdec t (pos + 1) rest).1 from rfl]
            rw [ih (pos + 1)]
            constructor
            · exact hshift
            · rintro ⟨j, tl, h1, h2, h3, h4⟩
              cases j with
              | zero =>
                have htl : tl2 = tl := by simpa using h1
                subst htl
                rw [hdec] at h2
                exact absurd h2 (by simp)
              | succ j => exact ⟨j, tl, by simpa using h1, h2, by omega, h4⟩
        · have hstep : enumRecGo rowdec t pos (some (b :: tl2) :: rest) =
              enumRecGo rowdec t (pos + 1) rest := by
            simp [enumRecGo, hb]
          rw [hstep, ih (pos + 1)]
          constructor
          · exact hshift
          · rintro ⟨j, tl, h1, h2, h3, h4⟩
            cases j with
            | zero =>
              have hbt : b = t.tableid := by
                have := h1
                simp at this
                exact this.1
              exact absurd hbt hb
            | succ j => exact ⟨j, tl, by simpa using h1, h2, by omega, h4⟩

theorem enumRecGo_mem_diag (rowdec : RowDec) (t : Table) (slots : List (Option Bytes))
    (q : Nat) (dd : Bytes) :
    ∀ pos, (⟨q, dd⟩ : Diag) ∈ (enumRecGo rowdec t pos slots).2 ↔
      ∃ j tl, slots[j]? = some (some (t.tableid :: tl)) ∧
        (∃ e, rowdec t.fields tl = .error e) ∧ q = pos + j ∧ dd = t.tableid :: tl := by
  induction slots with
  | nil => intro pos; simp [enumRecGo]
  | cons od rest ih =>
    intro pos
    have hshift :
        (∃ j tl, rest[j]? = some (some (t.tableid :: tl)) ∧
            (∃ e, rowdec t.fields tl = .error e) ∧ q = (pos + 1) + j ∧
            dd = t.tableid :: tl) →
        ∃ j tl, (od :: rest)[j]? = some (some (t.tableid :: tl)) ∧
            (∃ e, rowdec t.fields tl = .error e) ∧ q = pos + j ∧
            dd = t.tableid :: tl := by
      rintro ⟨j, tl, h1, h2, h3, h4⟩
      exact ⟨j + 1, tl, by simpa using h1, h2, by omega, h4⟩
    cases od with
    | none =>
      rw [show enumRecGo rowdec t pos (none :: rest) =
        enumRecGo rowdec t (pos + 1) rest from rfl]
      rw [ih (pos + 1)]
      constructor
      · exact hshift
      · rintro ⟨j, tl, h1, h2, h3, h4⟩
        cases j with
        | zero => simp at h1
        | succ j => exact ⟨j, tl, by simpa using h1, h2, by omega, h4⟩
    | some d =>
      cases d with
      | nil =>
        rw [show enumRecGo rowdec t pos (some [] :: rest) =
          enumRecGo rowdec t (pos + 1) rest from rfl]
        rw [ih (pos + 1)]
        constructor
        · exact hshift
        · rintro ⟨j, tl, h1, h2, h3, h4⟩
          cases j with
          | zero => simp at h1
          | succ j => exact ⟨j, tl, by simpa using h1, h2, by omega, h4⟩
      | cons b tl2 =>
        by_cases hb : b = t.tableid
        · subst hb
          cases hdec : rowdec t.fields tl2 with
          | ok row =>
            have hstep : enumRecGo rowdec t pos (some (t.tableid :: tl2) :: rest) =
                ((⟨pos, t.fields, row⟩ : Record) ::
                    (enumRecGo rowdec t (pos + 1) rest).1,
                  (enumRecGo rowdec t (pos + 1) rest).2) := by
              simp [enumRecGo, hdec]
            rw [hstep]
            rw [show ((⟨pos, t.fields, row⟩ : Record) ::
                (enumRecGo rowdec t (pos + 1) rest).1,
                (enumRecGo rowdec t (pos + 1) rest).2).2 =
              (enumRecGo rowdec t (pos + 1) rest).2 from rfl]
            rw [ih (pos + 1)]
            constructor
            · exact hshift
            · rintro ⟨j, tl, h1, h2, h3, h4⟩
              cases j with
              | zero =>
                have htl : tl2 = tl := by simpa using h1
                subst htl
                obtain ⟨e, he⟩ := h2
                rw [hdec] at he
                exact absurd he (by simp)
              | succ j => exact ⟨j, tl, by simpa using h1, h2, by omega, h4⟩
          | error e =>
            have hstep : enumRecGo rowdec t pos (some (t.tableid :: tl2) :: rest) =
                ((enumRecGo rowdec t (pos + 1) rest).1,
                  (⟨pos, t.tableid :: tl2⟩ : Diag) ::
                    (enumRecGo rowdec t (pos + 1) rest).2) := by
              simp [enumRecGo, hdec]
            rw [hstep]
            rw [show ((enumRecGo rowdec t (pos + 1) rest).1,
                (⟨pos, t.tableid :: tl2⟩ : Diag) ::
                  (enumRecGo rowdec t (pos + 1) rest).2).2 =
              (⟨pos, t.tableid :: tl2⟩ : Diag) ::
                (enumRecGo rowdec t (pos + 1) rest).2 from rfl]
            simp only [List.mem_cons]
            constructor
            · rintro (heq | hmem)
              · rw [Diag.mk.injEq] at heq
                exact ⟨0, tl2, by simp, ⟨e, hdec⟩, by omega, heq.2⟩
              · exact hshift ((ih (pos + 1)).mp hmem)
            · rintro ⟨j, tl, h1, h2, h3, h4⟩
              cases j with
              | zero =>
                have htl : tl2 = tl := by simpa using h1
                subst htl
                left
                rw [Diag.mk.injEq]
                exact ⟨by omega, h4⟩
              | succ j =>
                right
                exact (ih (pos + 1)).mpr ⟨j, tl, by simpa using h1, h2, by omega, h4⟩
        · have hstep : enumRecGo rowdec t pos (some (b :: tl2) :: rest) =
              enumRecGo rowdec t (pos + 1) rest := by
            simp [enumRecGo, hb]
          rw [hstep, ih (pos + 1)]
          constructor
          · exact hshift
          · rintro ⟨j, tl, h1, h2, h3, h4⟩
            cases j with
            | zero =>
              have hbt : b = t.tableid := by
                have := h1
                simp at this
                exact this.1
              exact absurd hbt hb
            | succ j => exact ⟨j, tl, by simpa using h1, h2, by omega, h4⟩

/-- Every record yielded from position `pos` on has record number at least
`pos`. -/
theorem enumRecGo_recno_lb (rowdec : RowDec) (t : Table) (slots : List (Option Bytes))
    (pos : Nat) (r : Record) (hr : r ∈ (enumRecGo rowdec t pos slots).1) :
    pos ≤ r.recno := by
  obtain ⟨rn, rf, rr⟩ := r
  obtain ⟨j, tl, h1, h2, h3, h4⟩ := (enumRecGo_mem_rec rowdec t slots rn rf rr pos).mp hr
  simp only
  omega

/-- The yielded records are in strictly ascending record-number order. -/
theorem enumRecGo_pairwise (rowdec : RowDec) (t : Table) (slots : List (Option Bytes)) :
    ∀ pos, List.Pairwise (fun a b => a.recno < b.recno) (enumRecGo rowdec t pos slots).1 := by
  induction slots with
  | nil => intro pos; simp [enumRecGo]
  | cons od rest ih =>
    intro pos
    cases od with
    | none =>
      rw [show enumRecGo rowdec t pos (none :: rest) =
        enumRecGo rowdec t (pos + 1) rest from rfl]
      exact ih (pos + 1)
    | some d =>
      cases d with
      | nil =>
        rw [show enumRecGo rowdec t pos (some [] :: rest) =
          enumRecGo rowdec t (pos + 1) rest from rfl]
        exact ih (pos + 1)
      | cons b tl2 =>
        by_cases hb : b = t.tableid
        · subst hb
          cases hdec : rowdec t.fields tl2 with
          | ok row =>
            have hstep : enumRecGo rowdec t pos (some (t.tableid :: tl2) :: rest) =
                ((⟨pos, t.fields, row⟩ : Record) ::
                    (enumRecGo rowdec t (pos + 1) rest).1,
                  (enumRecGo rowdec t (pos + 1) rest).2) := by
              simp [enumRecGo, hdec]
            rw [hstep]
            rw [show ((⟨pos, t.fields, row⟩ : Record) ::
                (enumRecGo rowdec t (pos + 1) rest).1,
                (enumRecGo rowdec t (pos + 1) rest).2).1 =
              (⟨pos, t.fields, row⟩ : Record) ::
                (enumRecGo rowdec t (pos + 1) rest).1 from rfl]
            rw [List.pairwise_cons]
            refine ⟨fun r hr => ?_, ih (pos + 1)⟩
            have := enumRecGo_recno_lb rowdec t rest (pos + 1) r hr
            simp only
            omega
          | error e =>
            have hstep : enumRecGo rowdec t pos (some (t.tableid :: tl2) :: rest) =
                ((enumRecGo rowdec t (pos + 1) rest).1,
                  (⟨pos, t.tableid :: tl2⟩ : Diag) ::
                    (enumRecGo rowdec t (pos + 1) rest).2) := by
              simp [enumRecGo, hdec]
            rw [hstep]
            exact ih (pos + 1)
        · have hstep : enumRecGo rowdec t pos (some (b :: tl2) :: rest) =
              enumRecGo rowdec t (pos + 1) rest := by
            simp [enumRecGo, hb]
          rw [hstep]
          exact ih (pos + 1)

theorem enumFilesGo_mem (t : Table) (slots : List (Option Bytes))
    (q : Nat) (dd : Bytes) :
    ∀ pos, (q, dd) ∈ enumFilesGo t pos slots ↔
      ∃ j tl, slots[j]? = some (some (t.tableid :: tl)) ∧ q = pos + j ∧ dd = tl := by
  induction slots with
  | nil => intro pos; simp [enumFilesGo]
  | cons od rest ih =>
    intro pos
    have hshift :
        (∃ j tl, rest[j]? = some (some (t.tableid :: tl)) ∧ q = (pos + 1) + j ∧ dd = tl) →
        ∃ j tl, (od :: rest)[j]? = some (some (t.tableid :: tl)) ∧ q = pos + j ∧ dd = tl := by
      rintro ⟨j, tl, h1, h2, h3⟩
      exact ⟨j + 1, tl, by simpa using h1, by omega, h3⟩
    cases od with
    | none =>
      rw [show enumFilesGo t pos (none :: rest) = enumFilesGo t (pos + 1) rest from rfl]
      rw [ih (pos + 1)]
      constructor
      · exact hshift
      · rintro ⟨j, tl, h1, h2, h3⟩
        cases j with
        | zero => simp at h1
        | succ j => exact ⟨j, tl, by simpa using h1, by omega, h3⟩
    | some d =>
      cases d with
      | nil =>
        rw [show enumFilesGo t pos (some [] :: rest) = enumFilesGo t (pos + 1) rest from rfl]
        rw [ih (pos + 1)]
        constructor
        · exact hshift
        · rintro ⟨j, tl, h1, h2, h3⟩
          cases j with
          | zero => simp at h1
          | succ j => exact ⟨j, tl, by simpa using h1, by omega, h3⟩
      | cons b tl2 =>
        by_cases hb : b = t.tableid
        · subst hb
          have hstep : enumFilesGo t pos (some (t.tableid :: tl2) :: rest) =
              (pos, tl2) :: enumFilesGo t (pos + 1) rest := by
            simp [enumFilesGo]
          rw [hstep]
          simp only [List.mem_cons]
          constructor
          · rintro (heq | hmem)
            · rw [Prod.mk.injEq] at heq
              exact ⟨0, tl2, by simp, by omega, heq.2⟩
            · exact hshift ((ih (pos + 1)).mp hmem)
          · rintro ⟨j, tl, h1, h2, h3⟩
            cases j with
            | zero =>
              have htl : tl2 = tl := by simpa using h1
              subst htl
              left
              rw [Prod.mk.injEq]
              exact ⟨by omega, h3⟩
            | succ j =>
              right
              exact (ih (pos + 1)).mpr ⟨j, tl, by simpa using h1, by omega, h3⟩
        · have hstep : enumFilesGo t pos (some (b :: tl2) :: rest) =
              enumFilesGo t (pos + 1) rest := by
            simp [enumFilesGo, hb]
          rw [hstep, ih (pos + 1)]
          constructor
          · exact hshift
          · rintro ⟨j, tl, h1, h2, h3⟩
            cases j with
            | zero =>
              have hbt : b = t.tableid := by
                have := h1
                simp at this
                exact this.1
              exact absurd hbt hb
            | succ j => exact ⟨j, tl, by simpa using h1, by omega, h3⟩

/-- Replacing a present-but-empty slot by an absent one does not change
the output of the `enumerate_records` loop. -/
theorem enumRecGo_set_none (rowdec : RowDec) (t : Table) (slots : List (Option Bytes)) :
    ∀ pos j, slots[j]? = some (some []) →
      enumRecGo rowdec t pos slots = enumRecGo rowdec t pos (slots.set j none) := by
  induction slots with
  | nil => intro pos j h; simp at h
  | cons od rest ih =>
    intro pos j h
    cases j with
    | zero =>
      have hod : od = some [] := by simpa using h
      subst hod
      rfl
    | succ j =>
      have h2 : rest[j]? = some (some []) := by simpa using h
      have hset : (od :: rest).set (j + 1) none = od :: rest.set j none := by simp
      rw [hset]
      show enumRecGo rowdec t pos (od :: rest) =
        enumRecGo rowdec t pos (od :: rest.set j none)
      simp only [enumRecGo]
      rw [ih (pos + 1) j h2]

/-- Replacing a present-but-empty slot by an absent one does not change
the output of the `enumerate_files` loop. -/
theorem enumFilesGo_set_none (t : Table) (slots : List (Option Bytes)) :
    ∀ pos j, slots[j]? = some (some []) →
      enumFilesGo t pos slots = enumFilesGo t pos (slots.set j none) := by
  induction slots with
  | nil => intro pos j h; simp at h
  | cons od rest ih =>
    intro pos j h
    cases j with
    | zero =>
      have hod : od = some [] := by simpa using h
      subst hod
      rfl
    | succ j =>
      have h2 : rest[j]? = some (some []) := by simpa using h
      have hset : (od :: rest).set (j + 1) none = od :: rest.set j none := by simp
      rw [hset]
      show enumFilesGo t pos (od :: rest) = enumFilesGo t pos (od :: rest.set j none)
      simp only [enumFilesGo]
      rw [ih (pos + 1) j h2]

/-- The always-succeeding row decoder, for concrete examples. -/
def okRowDec : RowDec := fun _ b => .ok b

/-- The ASCII bytes of `payload`. -/
def payloadBytes : Bytes := [112, 97, 121, 108, 111, 97, 100]

/-- The ASCII bytes of `more`. -/
def moreBytes : Bytes := [109, 111, 114, 101]

/-- C6: `enumerate_records` walks record numbers `1..count(bank)` in
ascending order and yields a decoded `Record` exactly for the present
records whose leading byte equals the table id and whose remainder the
row decoder accepts, skipping absent slots silently; a per-record decode
failure produces a diagnostic carrying the record number and the record
bytes, and the sweep continues.  On the store
`[absent, 01 "payload", absent, 01 "more"]` with table id 1 it yields
exactly the records at numbers 2 and 4, in that order, and no
diagnostic. -/
theorem C6_enumerate_records_filter (rowdec : RowDec) (bank : List (Option Bytes))
    (t : Table) :
    (∀ rn rf rr, (⟨rn, rf, rr⟩ : Record) ∈ (enumerate_records rowdec bank t).1 ↔
        ∃ j tl, bank[j]? = some (some (t.tableid :: tl)) ∧
          rowdec t.fields tl = .ok rr ∧ rn = 1 + j ∧ rf = t.fields) ∧
      List.Pairwise (fun a b => a.recno < b.recno) (enumerate_records rowdec bank t).1 ∧
      (∀ q dd, (⟨q, dd⟩ : Diag) ∈ (enumerate_records rowdec bank t).2 ↔
        ∃ j tl, bank[j]? = some (some (t.tableid :: tl)) ∧
          (∃ e, rowdec t.fields tl = .error e) ∧ q = 1 + j ∧ dd = t.tableid :: tl) ∧
      enumerate_records okRowDec
          [none, some (1 :: payloadBytes), none, some (1 :: moreBytes)] ⟨1, []⟩ =
        ([⟨2, [], payloadBytes⟩, ⟨4, [], moreBytes⟩], []) := by
  refine ⟨fun rn rf rr => ?_, ?_, fun q dd => ?_, ?_⟩
  · exact enumRecGo_mem_rec rowdec t bank rn rf rr 1
  · exact enumRecGo_pairwise rowdec t bank 1
  · exact enumRecGo_mem_diag rowdec t bank q dd 1
  · rfl

/-- C6 witness: the concrete store of the claim yields exactly the
records at numbers 2 and 4, in that order, with no diagnostic. -/
theorem C6_enumerate_records_filter_witness :
    enumerate_records okRowDec
        [none, some (1 :: payloadBytes), none, some (1 :: moreBytes)] ⟨1, []⟩ =
      ([⟨2, [], payloadBytes⟩, ⟨4, [], moreBytes⟩], []) :=
  (C6_enumerate_records_filter okRowDec
    [none, some (1 :: payloadBytes), none, some (1 :: moreBytes)] ⟨1, []⟩).2.2.2

/-- C10: a present-but-empty bank record is filtered out by
`enumerate_records` and `enumerate_files` exactly like an absent one —
replacing it by an absent slot changes nothing — and it produces no
yielded record, no diagnostic, and no yielded file at its record
number. -/
theorem C10_empty_record_like_absent (rowdec : RowDec) (bank : List (Option Bytes))
    (t : Table) (j : Nat) (hj : bank[j]? = some (some [])) :
    enumerate_records rowdec bank t = enumerate_records rowdec (bank.set j none) t ∧
      enumerate_files bank t = enumerate_files (bank.set j none) t ∧
      (∀ r ∈ (enumerate_records rowdec bank t).1, r.recno ≠ j + 1) ∧
      (∀ dg ∈ (enumerate_records rowdec bank t).2, dg.recno ≠ j + 1) ∧
      (∀ p ∈ enumerate_files bank t, p.1 ≠ j + 1) := by
  refine ⟨enumRecGo_set_none rowdec t bank 1 j hj,
    enumFilesGo_set_none t bank 1 j hj, ?_, ?_, ?_⟩
  · rintro ⟨rn, rf, rr⟩ hr hno
    obtain ⟨j2, tl, h1, h2, h3, h4⟩ :=
      (enumRecGo_mem_rec rowdec t bank rn rf rr 1).mp hr
    have hjj : j2 = j := by
      simp only at hno
      omega
    subst hjj
    rw [h1] at hj
    simp at hj
  · rintro ⟨q, dd⟩ hd hno
    obtain ⟨j2, tl, h1, h2, h3, h4⟩ :=
      (enumRecGo_mem_diag rowdec t bank q dd 1).mp hd
    have hjj : j2 = j := by
      simp only at hno
      omega
    subst hjj
    rw [h1] at hj
    simp at hj
  · rintro ⟨q, dd⟩ hp hno
    obtain ⟨j2, tl, h1, h2, h3⟩ := (enumFilesGo_mem t bank q dd 1).mp hp
    have hjj : j2 = j := by
      simp only at hno
      omega
    subst hjj
    rw [h1] at hj
    simp at hj

/-- C10 witness: a store whose third slot is present but empty behaves as
if that slot were absent, and record number 3 is never yielded. -/
theorem C10_empty_record_like_absent_witness :
    (enumerate_records okRowDec [none, some [1, 5], some [], some [1]] ⟨1, []⟩ =
        enumerate_records okRowDec
          ([none, some [1, 5], some [], some [1]].set 2 none) ⟨1, []⟩) ∧
      (enumerate_files [none, some [1, 5], some [], some [1]] ⟨1, []⟩ =
        enumerate_files ([none, some [1, 5], some [], some [1]].set 2 none) ⟨1, []⟩) ∧
      (∀ r ∈ (enumerate_records okRowDec
          [none, some [1, 5], some [], some [1]] ⟨1, []⟩).1, r.recno ≠ 2 + 1) ∧
      (∀ dg ∈ (enumerate_records okRowDec
          [none, some [1, 5], some [], some [1]] ⟨1, []⟩).2, dg.recno ≠ 2 + 1) ∧
      (∀ p ∈ enumerate_files [none, some [1, 5], some [], some [1]] ⟨1, []⟩,
        p.1 ≠ 2 + 1) :=
  C10_empty_record_like_absent okRowDec [none, some [1, 5], some [], some [1]]
    ⟨1, []⟩ 2 (by decide)

/-! ## Raw record sweep (`Database.recdump`, lines 174-241) -/

/-- The result of `dbfile.readrec(i)` inside the sweep's `try` block:
a present record's bytes, an absent record (`None`), an `IndexError`
(index beyond the physical extent of the store), or any other exception
(a per-record decode failure inside the store accessor) carrying its
message.  Modelled from the spec (§6): the record store is an external
collaborator whose out-of-range signal is distinguishable from
absence. -/
inductive ReadResult
  | present (data : Bytes)
  | absent
  | oor
  | err (msg : String)
  deriving DecidableEq, Repr

/-- The lines printed by the sweep loop: the `find1d` match (line 205),
the `<deleted>` marker (line 210), a record dump (line 212), and a caught
per-record exception (line 226). -/
inductive Ev
  | found1d (i : Nat) (data : Bytes)
  | deleted (i : Nat)
  | recOut (i : Nat) (data : Bytes)
  | excmsg (i : Nat) (msg : String)
  deriving DecidableEq, Repr

/-- The sweep's mutable state (lines 195-199): the consecutive-error
counter `nerr`, the absent and empty counters, the two 256-bucket
histograms (as total functions on bucket values), and the output printed
so far. -/
structure RState where
  nerr : Nat
  nr_recnone : Nat
  nr_recempty : Nat
  tabidxref : Nat → Nat
  bytexref : Nat → Nat
  out : List Ev

/-- The initial sweep state (lines 195-199). -/
def initRState : RState :=
  ⟨0, 0, 0, fun _ => 0, fun _ => 0, []⟩

/-- The arguments the sweep consumes: `args.find1d`, `args.stats`,
`args.debug`, `args.skipencrypted` and `args.maxrecs`. -/
structure RecArgs where
  find1d : Bool
  stats : Bool
  debug : Bool
  skipencrypted : Bool
  maxrecs : Nat
  deriving DecidableEq, Repr

/-- `histogram[b] += 1`. -/
def bump (f : Nat → Nat) (b : Nat) : Nat → Nat :=
  fun x => if x = b then f b + 1 else f x

/-- `for b in data: bytexref[b] += 1` (line 220-221). -/
def bumpAll (f : Nat → Nat) (l : Bytes) : Nat → Nat :=
  l.foldl bump f

/-- Python `data.find(marker) > 0` (line 204): the first occurrence of
the byte is at a strictly positive offset (`bytes.find` returns the
first index, or -1 when the byte is absent, and -1 > 0 is false). -/
def findPos (data : Bytes) (b : Nat) : Bool :=
  match data.findIdx? (fun x => x == b) with
  | some k => decide (0 < k)
  | none => false

/-- The full line-204 condition
`data and (data.find(b"\x1d") > 0 or data.find(b"\x1b") > 0)`. -/
def find1dHit (data : Bytes) : Bool :=
  !data.isEmpty && (findPos data 29 || findPos data 27)

/-- The claim's predicate: "the payload contains marker byte value `0x1d`
or `0x1b` at a non-zero offset". -/
def hasMarkerAtNonzeroOffset (data : Bytes) : Bool :=
  (data.drop 1).contains 29 || (data.drop 1).contains 27

/-- The sweep's outcome: `done` for normal termination (loop exhausted,
`break`, or falling out of the loop), `raised` when `args.debug`
re-raises a caught per-record exception (line 228). -/
inductive ROut
  | done (s : RState)
  | raised (s : RState)

def routIsDone : ROut → Bool
  | .done _ => true
  | .raised _ => false

def routOut : ROut → List Ev
  | .done s => s.out
  | .raised s => s.out

def routNerr : ROut → Nat
  | .done s => s.nerr
  | .raised s => s.nerr

/-- The sweep loop of `recdump` (lines 200-231): `for i in range(1,
args.maxrecs + 1)`, with `i` the current record number and `fuel` the
remaining iterations.  Each arm mirrors one branch of the `try` body:
the `find1d` scan with its `break`; the printing mode (`not args.stats`)
with its `<deleted>` marker; the statistics mode routing each fetched
record into exactly one of the absent counter, the empty counter, or the
two histograms; `except IndexError: break`; and the general `except` arm
that prints the error, re-raises under `args.debug`, increments `nerr`,
and breaks once `nerr > 5`.  Every non-exception iteration ends with
`nerr = 0` (line 222), except the `find1d` `break`, which skips it. -/
def recdumpLoop (a : RecArgs) (store : Nat → ReadResult) :
    Nat → Nat → RState → ROut
  | 0, _, s => .done s
  | fuel + 1, i, s =>
    match store i with
    | .oor => .done s
    | .err m =>
      let s1 : RState := { s with out := s.out ++ [.excmsg i m] }
      if a.debug then .raised s1
      else if s1.nerr + 1 > 5 then .done { s1 with nerr := s1.nerr + 1 }
      else recdumpLoop a store fuel (i + 1) { s1 with nerr := s1.nerr + 1 }
    | .absent =>
      if a.find1d then
        recdumpLoop a store fuel (i + 1) { s with nerr := 0 }
      else if !a.stats then
        recdumpLoop a store fuel (i + 1)
          { s with out := s.out ++ [.deleted i], nerr := 0 }
      else
        recdumpLoop a store fuel (i + 1)
          { s with nr_recnone := s.nr_recnone + 1, nerr := 0 }
    | .present data =>
      if a.find1d then
        if find1dHit data then .done { s with out := s.out ++ [.found1d i data] }
        else recdumpLoop a store fuel (i + 1) { s with nerr := 0 }
      else if !a.stats then
        recdumpLoop a store fuel (i + 1)
          { s with out := s.out ++ [.recOut i data], nerr := 0 }
      else
        match data with
        | [] => recdumpLoop a store fuel (i + 1)
            { s with nr_recempty := s.nr_recempty + 1, nerr := 0 }
        | b :: tl => recdumpLoop a store fuel (i + 1)
            { s with tabidxref := bump s.tabidxref b,
                     bytexref := bumpAll s.bytexref tl, nerr := 0 }

/-- Modelled from the spec: the slice of a `Datafile` that `recdump`
consumes — its encoding kind and its record accessor. -/
structure DatafileM where
  encoding : Nat
  readrec : Nat → ReadResult

/-- `Database.recdump` (lines 174-241) for a chosen store: the
skip-encrypted early return (lines 192-194) followed by the sweep loop
over record numbers `1 .. args.maxrecs`. -/
def recdump (a : RecArgs) (dbfile : DatafileM) : ROut :=
  if a.skipencrypted ∧ dbfile.encoding = 3 then .done initRState
  else recdumpLoop a dbfile.readrec a.maxrecs 1 initRState

/-! ### Step lemmas for the sweep loop -/

theorem recdumpLoop_oor (a : RecArgs) (store : Nat → ReadResult) (fuel i : Nat)
    (s : RState) (h : store i = .oor) :
    recdumpLoop a store (fuel + 1) i s = .done s := by
  simp [recdumpLoop, h]

theorem recdumpLoop_err (a : RecArgs) (store : Nat → ReadResult) (fuel i : Nat)
    (s : RState) (m : String) (hm : store i = .err m) (hdbg : a.debug = false)
    (hle : s.nerr + 1 ≤ 5) :
    recdumpLoop a store (fuel + 1) i s =
      recdumpLoop a store fuel (i + 1)
        { s with nerr := s.nerr + 1, out := s.out ++ [.excmsg i m] } := by
  simp only [recdumpLoop, hm, hdbg]
  rw [if_neg (by simp), if_neg (by simp; omega)]

theorem recdumpLoop_err6 (a : RecArgs) (store : Nat → ReadResult) (fuel i : Nat)
    (s : RState) (m : String) (hm : store i = .err m) (hdbg : a.debug = false)
    (hgt : s.nerr + 1 > 5) :
    recdumpLoop a store (fuel + 1) i s =
      .done { s with nerr := s.nerr + 1, out := s.out ++ [.excmsg i m] } := by
  simp only [recdumpLoop, hm, hdbg]
  rw [if_neg (by simp), if_pos (by simp; omega)]

theorem recdumpLoop_print_present (a : RecArgs) (store : Nat → ReadResult)
    (fuel i : Nat) (s : RState) (d : Bytes) (hm : store i = .present d)
    (hf : a.find1d = false) (hs : a.stats = false) :
    recdumpLoop a store (fuel + 1) i s =
      recdumpLoop a store fuel (i + 1)
        { s with nerr := 0, out := s.out ++ [.recOut i d] } := by
  simp [recdumpLoop, hm, hf, hs]

theorem recdumpLoop_find1d_hit (a : RecArgs) (store : Nat → ReadResult)
    (fuel i : Nat) (s : RState) (d : Bytes) (hm : store i = .present d)
    (hf : a.find1d = true) (hhit : find1dHit d = true) :
    recdumpLoop a store (fuel + 1) i s =
      .done { s with out := s.out ++ [.found1d i d] } := by
  simp [recdumpLoop, hm, hf, hhit]

theorem recdumpLoop_find1d_miss (a : RecArgs) (store : Nat → ReadResult)
    (fuel i : Nat) (s : RState) (d : Bytes) (hm : store i = .present d)
    (hf : a.find1d = true) (hmiss : find1dHit d = false) :
    recdumpLoop a store (fuel + 1) i s =
      recdumpLoop a store fuel (i + 1) { s with nerr := 0 } := by
  simp [recdumpLoop, hm, hf, hmiss]

theorem recdumpLoop_find1d_absent (a : RecArgs) (store : Nat → ReadResult)
    (fuel i : Nat) (s : RState) (hm : store i = .absent) (hf : a.find1d = true) :
    recdumpLoop a store (fuel + 1) i s =
      recdumpLoop a store fuel (i + 1) { s with nerr := 0 } := by
  simp [recdumpLoop, hm, hf]

theorem recdumpLoop_stats_present (a : RecArgs) (store : Nat → ReadResult)
    (fuel i : Nat) (s : RState) (b : Nat) (tl : Bytes)
    (hm : store i = .present (b :: tl)) (hf : a.find1d = false)
    (hs : a.stats = true) :
    recdumpLoop a store (fuel + 1) i s =
      recdumpLoop a store fuel (i + 1)
        { s with tabidxref := bump s.tabidxref b,
                 bytexref := bumpAll s.bytexref tl, nerr := 0 } := by
  simp [recdumpLoop, hm, hf, hs]

/-! ### C9: out-of-range index -/

/-- C9: during a raw sweep, fetching an index beyond the physical extent
of the store (`IndexError`) terminates the sweep immediately and cleanly:
the state is returned unchanged — in particular the consecutive-failure
counter is not incremented and nothing is printed — and the outcome is a
normal `done`, never a raised exception, so the program does not abort. -/
theorem C9_out_of_range_stops_cleanly (a : RecArgs) (store : Nat → ReadResult)
    (fuel i : Nat) (s : RState) (h : store i = .oor) :
    recdumpLoop a store (fuel + 1) i s = .done s :=
  recdumpLoop_oor a store fuel i s h

/-- C9 witness: a store that is out of range at record 1 ends the sweep
at once with the initial state. -/
theorem C9_out_of_range_stops_cleanly_witness :
    recdumpLoop ⟨false, false, false, false, 5⟩ (fun _ => .oor) (4 + 1) 1 initRState =
      .done initRState :=
  C9_out_of_range_stops_cleanly ⟨false, false, false, false, 5⟩ (fun _ => .oor)
    4 1 initRState rfl

/-! ### C8: statistics mode -/

/-- Running the statistics sweep over `m` consecutive present records all
carrying table id 5, followed by an out-of-range index, terminates
normally having added `m` to table-id bucket 5 and touched no other
table-id bucket and neither the absent nor the empty counter. -/
theorem recdumpLoop_stats_run (a : RecArgs) (store : Nat → ReadResult)
    (hf : a.find1d = false) (hs : a.stats = true) :
    ∀ (m fuel i : Nat) (s : RState),
      (∀ k, k < m → ∃ tl, store (i + k) = .present (5 :: tl)) →
      store (i + m) = .oor → m + 1 ≤ fuel →
      ∃ s2, recdumpLoop a store fuel i s = .done s2 ∧
        (∀ b, s2.tabidxref b = if b = 5 then s.tabidxref b + m else s.tabidxref b) ∧
        s2.nr_recnone = s.nr_recnone ∧ s2.nr_recempty = s.nr_recempty := by
  intro m
  induction m with
  | zero =>
    intro fuel i s hrec hoor hfuel
    obtain ⟨f, rfl⟩ : ∃ f, fuel = f + 1 := ⟨fuel - 1, by omega⟩
    refine ⟨s, ?_, by simp, rfl, rfl⟩
    exact recdumpLoop_oor a store f i s (by simpa using hoor)
  | succ m ih =>
    intro fuel i s hrec hoor hfuel
    obtain ⟨f, rfl⟩ : ∃ f, fuel = f + 1 := ⟨fuel - 1, by omega⟩
    obtain ⟨tl, htl⟩ := hrec 0 (by omega)
    rw [recdumpLoop_stats_present a store f i s 5 tl (by simpa using htl) hf hs]
    obtain ⟨s2, h1, h2, h3, h4⟩ := ih f (i + 1)
      { s with tabidxref := bump s.tabidxref 5,
               bytexref := bumpAll s.bytexref tl, nerr := 0 }
      (fun k hk => by
        rw [show i + 1 + k = i + (k + 1) from by omega]
        exact hrec (k + 1) (by omega))
      (by rw [show i + 1 + m = i + (m + 1) from by omega]; exact hoor)
      (by omega)
    refine ⟨s2, h1, fun b => ?_, by simpa using h3, by simpa using h4⟩
    have hb := h2 b
    by_cases h5 : b = 5
    · subst h5
      simp [bump] at hb ⊢
      omega
    · simp [bump, h5] at hb ⊢
      exact hb

/-- C8: in statistics mode every fetched record goes into exactly one of
the absent counter, the empty counter, or the histograms; for a store of
N records that are all present with leading table-id byte `0x05`, the
sweep ends normally with table-id histogram count N at bucket 5, zero at
every other bucket, and zero absent and empty counts. -/
theorem C8_stats_histogram (a : RecArgs) (dbfile : DatafileM) (N : Nat)
    (hf : a.find1d = false) (hs : a.stats = true)
    (hskip : ¬(a.skipencrypted = true ∧ dbfile.encoding = 3))
    (hrec : ∀ i, 1 ≤ i → i ≤ N → ∃ tl, dbfile.readrec i = .present (5 :: tl))
    (hoor : dbfile.readrec (N + 1) = .oor)
    (hmax : N + 1 ≤ a.maxrecs) :
    ∃ s2, recdump a dbfile = .done s2 ∧
      (∀ b, s2.tabidxref b = if b = 5 then N else 0) ∧
      s2.nr_recnone = 0 ∧ s2.nr_recempty = 0 := by
  rw [recdump, if_neg (by simpa using hskip)]
  obtain ⟨s2, h1, h2, h3, h4⟩ := recdumpLoop_stats_run a dbfile.readrec hf hs
    N a.maxrecs 1 initRState
    (fun k hk => by
      have := hrec (1 + k) (by omega) (by omega)
      exact this)
    (by rw [show (1 : Nat) + N = N + 1 from by omega]; exact hoor) hmax
  refine ⟨s2, h1, fun b => ?_, by simpa [initRState] using h3,
    by simpa [initRState] using h4⟩
  have hb := h2 b
  simpa [initRState] using hb

/-- C8 witness: a two-record store with table-id byte 5 on both records
produces table-id histogram count 2 at bucket 5 and zero elsewhere. -/
theorem C8_stats_histogram_witness :
    ∃ s2, recdump ⟨false, true, false, false, 3⟩
        ⟨0, fun i => if i = 1 then .present [5, 1] else
          if i = 2 then .present [5] else .oor⟩ = .done s2 ∧
      (∀ b, s2.tabidxref b = if b = 5 then 2 else 0) ∧
      s2.nr_recnone = 0 ∧ s2.nr_recempty = 0 :=
  C8_stats_histogram ⟨false, true, false, false, 3⟩
    ⟨0, fun i => if i = 1 then .present [5, 1] else
      if i = 2 then .present [5] else .oor⟩ 2 rfl rfl (by simp)
    (by
      intro i h1 h2
      have hi : i = 1 ∨ i = 2 := by omega
      rcases hi with hi | hi
      · subst hi
        exact ⟨[1], rfl⟩
      · subst hi
        exact ⟨[], rfl⟩)
    rfl (by norm_num)

/-! ### C1: the consecutive-failure circuit breaker -/

/-- Error message used by the concrete stores below. -/
def msgBoom : String := "decode failure"

/-- Print-mode sweep arguments scanning up to 10 records. -/
def c1args : RecArgs := ⟨false, false, false, false, 10⟩

/-- A store with decode failures at records 1-5 and a good record 6. -/
def c1file : DatafileM :=
  ⟨0, fun i => if i ≤ 5 then .err msgBoom else
    if i = 6 then .present [65] else .oor⟩

/-- C1 counterexample: on a store with decode failures at records 1-5 and
a good record 6, the sweep does NOT abort after the 5 consecutive
failures: it goes on to process and print the 6th record (refuting
"after 5 consecutive failures the sweep aborts early" and "aborts before
processing that 6th record"), ends normally, and the success resets the
consecutive-failure counter to zero. -/
theorem C1_counterexample_five_failures_not_enough :
    routIsDone (recdump c1args c1file) = true ∧
      Ev.recOut 6 [65] ∈ routOut (recdump c1args c1file) ∧
      routNerr (recdump c1args c1file) = 0 := by
  decide

/-- C1 (amended): per-record decode failures are caught, logged with the
record index and error text, and counted; the circuit breaker fires after
SIX consecutive failures (the code breaks on `nerr > 5`), not five:
(a) six consecutive failures abort the sweep with `nerr = 6`, fetching no
further record; (b) five consecutive failures followed by a successfully
fetched record do not abort — that sixth record is processed and printed
and the consecutive-failure counter resets to zero. -/
theorem C1_circuit_breaker_after_six (a : RecArgs) (store : Nat → ReadResult)
    (i fuel : Nat) (s : RState) (ms : Nat → String) (d : Bytes) :
    (a.debug = false → s.nerr = 0 →
      (∀ k, k < 6 → store (i + k) = .err (ms k)) → 6 ≤ fuel →
      recdumpLoop a store fuel i s =
        .done { s with
          nerr := 6
          out := s.out ++ [.excmsg i (ms 0), .excmsg (i + 1) (ms 1),
            .excmsg (i + 2) (ms 2), .excmsg (i + 3) (ms 3),
            .excmsg (i + 4) (ms 4), .excmsg (i + 5) (ms 5)] }) ∧
    (a.debug = false → a.find1d = false → a.stats = false → s.nerr = 0 →
      (∀ k, k < 5 → store (i + k) = .err (ms k)) → store (i + 5) = .present d →
      6 ≤ fuel →
      recdumpLoop a store fuel i s =
        recdumpLoop a store (fuel - 6) (i + 6)
          { s with
            nerr := 0
            out := s.out ++ [.excmsg i (ms 0), .excmsg (i + 1) (ms 1),
              .excmsg (i + 2) (ms 2), .excmsg (i + 3) (ms 3),
              .excmsg (i + 4) (ms 4), .recOut (i + 5) d] }) := by
  constructor
  · intro hdbg hn h6 hfuel
    obtain ⟨n0, na, ne, ti, bi, ou⟩ := s
    simp only at hn
    subst hn
    obtain ⟨f, rfl⟩ : ∃ f, fuel = f + 1 + 1 + 1 + 1 + 1 + 1 := ⟨fuel - 6, by omega⟩
    rw [recdumpLoop_err a store _ i _ (ms 0)
      (by simpa using h6 0 (by norm_num)) hdbg (by simp)]
    rw [recdumpLoop_err a store _ (i + 1) _ (ms 1) (h6 1 (by norm_num)) hdbg (by simp)]
    rw [show i + 1 + 1 = i + 2 from by omega]
    rw [recdumpLoop_err a store _ (i + 2) _ (ms 2) (h6 2 (by norm_num)) hdbg (by simp)]
    rw [show i + 2 + 1 = i + 3 from by omega]
    rw [recdumpLoop_err a store _ (i + 3) _ (ms 3) (h6 3 (by norm_num)) hdbg (by simp)]
    rw [show i + 3 + 1 = i + 4 from by omega]
    rw [recdumpLoop_err a store _ (i + 4) _ (ms 4) (h6 4 (by norm_num)) hdbg (by simp)]
    rw [show i + 4 + 1 = i + 5 from by omega]
    rw [recdumpLoop_err6 a store _ (i + 5) _ (ms 5) (h6 5 (by norm_num)) hdbg (by simp)]
    simp [List.append_assoc]
  · intro hdbg hff hss hn h5 hp hfuel
    obtain ⟨n0, na, ne, ti, bi, ou⟩ := s
    simp only at hn
    subst hn
    obtain ⟨f, rfl⟩ : ∃ f, fuel = f + 1 + 1 + 1 + 1 + 1 + 1 := ⟨fuel - 6, by omega⟩
    rw [recdumpLoop_err a store _ i _ (ms 0)
      (by simpa using h5 0 (by norm_num)) hdbg (by simp)]
    rw [recdumpLoop_err a store _ (i + 1) _ (ms 1) (h5 1 (by norm_num)) hdbg (by simp)]
    rw [show i + 1 + 1 = i + 2 from by omega]
    rw [recdumpLoop_err a store _ (i + 2) _ (ms 2) (h5 2 (by norm_num)) hdbg (by simp)]
    rw [show i + 2 + 1 = i + 3 from by omega]
    rw [recdumpLoop_err a store _ (i + 3) _ (ms 3) (h5 3 (by norm_num)) hdbg (by simp)]
    rw [show i + 3 + 1 = i + 4 from by omega]
    rw [recdumpLoop_err a store _ (i + 4) _ (ms 4) (h5 4 (by norm_num)) hdbg (by simp)]
    rw [show i + 4 + 1 = i + 5 from by omega]
    rw [recdumpLoop_print_present a store _ (i + 5) _ d hp hff hss]
    rw [show i + 5 + 1 = i + 6 from by omega]
    rw [show f + 1 + 1 + 1 + 1 + 1 + 1 - 6 = f from by omega]
    congr 1
    simp [List.append_assoc]

/-- A store failing at records 1-6, with record 7 good: the sweep aborts
with `nerr = 6` before fetching record 7. -/
def c1wfile : DatafileM :=
  ⟨0, fun i => if i ≤ 6 then .err msgBoom else .present [65]⟩

/-- C1 witness: six consecutive failures starting at record 1 abort the
sweep with `nerr = 6` and exactly the six failure logs printed, even
though record 7 would succeed. -/
theorem C1_circuit_breaker_after_six_witness :
    recdumpLoop c1args c1wfile.readrec 10 1 initRState =
      .done { initRState with
        nerr := 6
        out := initRState.out ++ [.excmsg 1 msgBoom, .excmsg 2 msgBoom,
          .excmsg 3 msgBoom, .excmsg 4 msgBoom, .excmsg 5 msgBoom,
          .excmsg 6 msgBoom] } :=
  (C1_circuit_breaker_after_six c1args c1wfile.readrec 1 10 initRState
    (fun _ => msgBoom) []).1 rfl rfl (by decide) (by norm_num)

/-! ### C2: the pattern-scan mode -/

/-- Pattern-scan sweep arguments scanning up to 9 records. -/
def c2args : RecArgs := ⟨true, false, false, false, 9⟩

/-- First record `1d 1d` (marker at non-zero offset 1, but first
occurrence at offset 0), second record `41 1b` (first `1b` occurrence at
offset 1). -/
def c2file : DatafileM :=
  ⟨0, fun i => if i = 1 then .present [29, 29] else
    if i = 2 then .present [65, 27] else .oor⟩

/-- C2 counterexample: record 1 contains marker `0x1d` at a non-zero
offset, yet the pattern scan does not stop at it — the sweep goes on to
process record 2 and prints that one instead, refuting "for every record
containing such a marker at a non-zero offset, the sweep stops at that
record and processes no later index". -/
theorem C2_counterexample_marker_also_at_offset_zero :
    c2file.readrec 1 = .present [29, 29] ∧
      hasMarkerAtNonzeroOffset [29, 29] = true ∧
      routOut (recdump c2args c2file) = [Ev.found1d 2 [65, 27]] := by
  decide

/-- C2 (amended): in pattern-scan mode the sweep halts at — and prints —
the first record whose payload's FIRST occurrence of byte `0x1d` is at a
non-zero offset or whose first occurrence of byte `0x1b` is at a non-zero
offset (Python `data.find(marker) > 0`), processing no later index; a
record whose marker occurrences all begin at offset 0 does not stop the
sweep. -/
theorem C2_find1d_halts_on_first_hit (a : RecArgs) (store : Nat → ReadResult)
    (hf : a.find1d = true) :
    ∀ (fuel i j : Nat) (s : RState) (d : Bytes), i ≤ j → j - i < fuel →
      (∀ k, i ≤ k → k < j →
        store k = .absent ∨ ∃ dk, store k = .present dk ∧ find1dHit dk = false) →
      store j = .present d → find1dHit d = true →
      ∃ s2, recdumpLoop a store fuel i s = .done s2 ∧
        s2.out = s.out ++ [.found1d j d] := by
  intro fuel
  induction fuel with
  | zero =>
    intro i j s d hij hfuel
    exact absurd hfuel (by omega)
  | succ f ih =>
    intro i j s d hij hfuel hbefore hj hhit
    by_cases hej : i = j
    · subst hej
      exact ⟨_, recdumpLoop_find1d_hit a store f i s d hj hf hhit, by simp⟩
    · have hik : i < j := by omega
      rcases hbefore i (by omega) hik with habs | ⟨dk, hdk, hmiss⟩
      · rw [recdumpLoop_find1d_absent a store f i s habs hf]
        obtain ⟨s2, h1, h2⟩ := ih (i + 1) j { s with nerr := 0 } d (by omega)
          (by omega) (fun k hk1 hk2 => hbefore k (by omega) hk2) hj hhit
        exact ⟨s2, h1, by simpa using h2⟩
      · rw [recdumpLoop_find1d_miss a store f i s dk hdk hf hmiss]
        obtain ⟨s2, h1, h2⟩ := ih (i + 1) j { s with nerr := 0 } d (by omega)
          (by omega) (fun k hk1 hk2 => hbefore k (by omega) hk2) hj hhit
        exact ⟨s2, h1, by simpa using h2⟩

/-- C2 witness: on the concrete store above the sweep halts at record 2,
printing it. -/
theorem C2_find1d_halts_on_first_hit_witness :
    ∃ s2, recdumpLoop c2args c2file.readrec 9 1 initRState = .done s2 ∧
      s2.out = initRState.out ++ [.found1d 2 [65, 27]] :=
  C2_find1d_halts_on_first_hit c2args c2file.readrec rfl 9 1 2 initRState
    [65, 27] (by norm_num) (by norm_num)
    (by
      intro k hk1 hk2
      have hk : k = 1 := by omega
      subst hk
      exact Or.inr ⟨[29, 29], rfl, by decide⟩)
    rfl (by decide)

end Crodump
